import Mathlib

/-!
Verification development for the plan-execute-retrieve engine of the
`deeplake` SDK code-assistant repository.

Part A embeds the dependency-aware task execution engine of
`sdk_codeassist/generation/code_generator.py` (`SDKCodeGenerator`):
the data contracts (`CodeTask`, `CodePlan`, `CodeOutput`), the per-task
generation wrapper `generate_code_for_task`, and the while-loop of
`generate_from_plan` as an explicit state machine.  The LLM chain invoked
inside the `try:` block of `generate_code_for_task` is abstracted as a
fallible function `chain : CodeTask → String → Except String CodeOutput`;
everything after that call is translated statement by statement.

Part B embeds the confidence-gated retrieval layer of
`codelake/retrieval/enhanced_retriever.py` (`SDKRetriever`) and the
secondary web retriever of `codelake/retrieval/web_search.py`.  The
primary vector-store call (which may raise) is passed in as an
`Except`-valued input; the secondary retriever is a total function because
`WebSearchRetriever._get_relevant_documents` catches all its own errors.
-/

/-! ### Part A: data contracts of the task engine (task_planner.py / code_generator.py) -/

/-- Mirrors `CodeTask` in `codelake/planning/task_planner.py`. -/
structure CodeTask where
  id : String
  description : String
  sdk_components : List String
  dependencies : List String
deriving DecidableEq

/-- Mirrors `CodePlan` in `codelake/planning/task_planner.py`; the `context`
dictionary is carried as an association list and never read by the engine. -/
structure CodePlan where
  tasks : List CodeTask
  context : List (String × String) := []
deriving DecidableEq

/-- Mirrors `CodeOutput` in `code_generator.py`: the structured artifact of one
generation call.  The float confidence is embedded as an exact rational. -/
structure CodeOutput where
  code : String
  explanation : String
  confidence : ℚ
  missing_info : Option (List String) := none
  suggestions : Option (List String) := none
deriving DecidableEq

/-- Mirrors `SDKCodeGenerator.generate_code_for_task` (code_generator.py lines
117-161).  `chain` stands for the whole `try:` body (documentation retrieval,
prompt, LLM call, output parsing); on any raised error the method returns the
fallback `CodeOutput` built in the `except` branch and never propagates. -/
def generate_code_for_task (chain : CodeTask → String → Except String CodeOutput)
    (task : CodeTask) (previous_code : String) : CodeOutput :=
  match chain task previous_code with
  | .ok result => result
  | .error e =>
      { code := "# Error generating code for: " ++ task.description ++ "\n# " ++ e ++
          "\n\n# Please try again with more specific instructions"
        explanation := "An error occurred during code generation."
        confidence := 0
        missing_info := some ["Error occurred during generation. Please try again with more detail."] }

/-- Ghost record of one generation invocation: the task, the `completed_tasks`
set and the `all_code` accumulator at call time, and the artifact produced. -/
structure ExecCall where
  task : CodeTask
  completedAtCall : List String
  priorCode : String
  result : CodeOutput
deriving DecidableEq

/-- State of the `generate_from_plan` while-loop.  `executed` is a ghost trace
of the generation invocations in order; `planTasks` models the caller's
`plan.tasks` list, a distinct object from the engine's working copy
`remaining` (the source copies it with `plan.tasks.copy()`). -/
structure EngState where
  all_code : String
  task_outputs : List (String × CodeOutput)
  completed : List String
  remaining : List CodeTask
  executed : List ExecCall
  planTasks : List CodeTask
deriving DecidableEq

/-- Python `set.add` on the `completed_tasks` set, modelled on a duplicate-free
list. -/
def insertCompleted (i : String) (c : List String) : List String :=
  if c.contains i then c else c ++ [i]

/-- Python dict assignment `task_outputs[task.id] = result`: insertion order is
preserved; assigning an existing key updates in place. -/
def dictInsert (k : String) (v : CodeOutput) (d : List (String × CodeOutput)) :
    List (String × CodeOutput) :=
  if d.any (fun p => p.1 == k) then d.map (fun p => if p.1 == k then (k, v) else p)
  else d ++ [(k, v)]

/-- The `ready_tasks` list comprehension (code_generator.py lines 183-186). -/
def readyTasks (completed : List String) (remaining : List CodeTask) : List CodeTask :=
  remaining.filter (fun task => task.dependencies.all (fun dep => completed.contains dep))

/-- Body of the inner `for task in ready_tasks:` loop (lines 194-204):
generate, record the artifact, extend `all_code`, mark completed, remove the
task from the remaining list (`list.remove` = first-occurrence erase). -/
def engineStep (gen : CodeTask → String → CodeOutput) (st : EngState) (task : CodeTask) :
    EngState :=
  let result := gen task st.all_code
  { all_code := st.all_code ++ "\n# Task: " ++ task.description ++ "\n" ++ result.code ++ "\n\n"
    task_outputs := dictInsert task.id result st.task_outputs
    completed := insertCompleted task.id st.completed
    remaining := st.remaining.erase task
    executed := st.executed ++ [⟨task, st.completed, st.all_code, result⟩]
    planTasks := st.planTasks }

/-- The inner loop over a readiness batch. -/
def runBatch (gen : CodeTask → String → CodeOutput) (st : EngState) (batch : List CodeTask) :
    EngState :=
  batch.foldl (engineStep gen) st

/-- One iteration of the outer `while remaining_tasks:` loop (lines 181-204):
compute `ready_tasks`; if it is empty fall back to `[remaining_tasks[0]]`
(forced progress under cycles); then run the batch. -/
def engineIter (gen : CodeTask → String → CodeOutput) (st : EngState) : EngState :=
  match st.remaining with
  | [] => st
  | t0 :: _ =>
      let ready := readyTasks st.completed st.remaining
      runBatch gen st (if ready.isEmpty then [t0] else ready)

/-- Fuel-indexed unfolding of the while-loop; `engineLoop` below instantiates
the fuel with `|remaining|`, which is proved sufficient
(`engineRun_remaining_nil`), and `engineLoop_eq` recovers the defining
equation of the loop, so this is exactly the while-loop's semantics. -/
def engineRun (gen : CodeTask → String → CodeOutput) : Nat → EngState → EngState
  | 0, st => st
  | fuel + 1, st => if st.remaining.isEmpty then st else engineRun gen fuel (engineIter gen st)

/-- Number of outer-loop iterations performed by `engineRun`. -/
def engineRunIters (gen : CodeTask → String → CodeOutput) : Nat → EngState → Nat
  | 0, _ => 0
  | fuel + 1, st =>
      if st.remaining.isEmpty then 0 else engineRunIters gen fuel (engineIter gen st) + 1

/-- The `while remaining_tasks:` loop of `generate_from_plan`. -/
def engineLoop (gen : CodeTask → String → CodeOutput) (st : EngState) : EngState :=
  engineRun gen st.remaining.length st

/-- Number of outer-loop iterations executed by `engineLoop`. -/
def engineIters (gen : CodeTask → String → CodeOutput) (st : EngState) : Nat :=
  engineRunIters gen st.remaining.length st

/-- Initial loop state of `generate_from_plan`: empty accumulators,
`remaining_tasks = plan.tasks.copy()`. -/
def initState (plan : CodePlan) : EngState :=
  { all_code := ""
    task_outputs := []
    completed := []
    remaining := plan.tasks
    executed := []
    planTasks := plan.tasks }

/-- Result dictionary of `generate_from_plan` (lines 209-217). -/
structure GenResult where
  code : String
  task_outputs : List (String × CodeOutput)
  confidence : ℚ
  missing_info : List String
  suggestions : List String
deriving DecidableEq

/-- Mirrors `SDKCodeGenerator.generate_from_plan` (lines 163-217): run the
dependency-ordered loop, then aggregate confidence (mean, 0 if no tasks) and
flatten `missing_info` / `suggestions` over `task_outputs.values()`. -/
def generate_from_plan (chain : CodeTask → String → Except String CodeOutput)
    (plan : CodePlan) : GenResult :=
  let st := engineLoop (generate_code_for_task chain) (initState plan)
  { code := st.all_code
    task_outputs := st.task_outputs
    confidence :=
      if st.task_outputs.isEmpty then 0
      else (st.task_outputs.map (fun p => p.2.confidence)).sum / (st.task_outputs.length : ℚ)
    missing_info := (st.task_outputs.map (fun p => p.2.missing_info.getD [])).flatten
    suggestions := (st.task_outputs.map (fun p => p.2.suggestions.getD [])).flatten }

/-- Ghost trace of the generation invocations performed by
`generate_from_plan chain plan`, in invocation order. -/
def executionTrace (chain : CodeTask → String → Except String CodeOutput)
    (plan : CodePlan) : List ExecCall :=
  (engineLoop (generate_code_for_task chain) (initState plan)).executed

/-- The block appended to `all_code` for one completed task (lines 199-200):
note the leading newline of the first f-string. -/
def codeBlock (c : ExecCall) : String :=
  "\n# Task: " ++ c.task.description ++ "\n" ++ c.result.code ++ "\n\n"

/-- Arithmetic mean of a list of rationals, 0 for the empty list (the
aggregation rule of the spec). -/
def listMean (l : List ℚ) : ℚ := if l.isEmpty then 0 else l.sum / (l.length : ℚ)

/-! ### Part B: the retrieval layer (enhanced_retriever.py / web_search.py) -/

/-- Mirrors the langchain `Document` as used by the retrieval layer: textual
content plus a scalar metadata mapping. -/
structure Document where
  page_content : String
  metadata : List (String × String)
deriving DecidableEq

/-- Configuration of `SDKRetriever` (enhanced_retriever.py lines 18-41).  The
optional secondary retriever is a total function: see the module comment. -/
structure SDKRetriever where
  confidence_threshold : ℚ
  k : Nat
  filter_fn : Option (Document → Bool)
  web_retriever : Option (String → List Document)

/-- Python `max(scores) if scores else 0`. -/
def maxScore : List ℚ → ℚ
  | [] => 0
  | x :: xs => xs.foldl (fun a b => if a < b then b else a) x

/-- The `if self.filter_fn and docs:` filtering step (lines 64-65). -/
def applyFilter (r : SDKRetriever) (docs : List Document) : List Document :=
  match r.filter_fn with
  | some f => if docs.isEmpty then docs else docs.filter f
  | none => docs

/-- Mirrors `SDKRetriever._get_relevant_documents` (lines 43-93).  `vres` is
the outcome of the `similarity_search_with_score` call (`.error` when the
vector store raises); `useWebSearch` is `settings.use_web_search`. -/
def sdkGetRelevantDocuments (r : SDKRetriever) (useWebSearch : Bool)
    (vres : Except String (List (Document × ℚ))) (query : String) : List Document :=
  match vres with
  | .ok vector_results =>
      let docs0 := vector_results.map Prod.fst
      let scores := vector_results.map Prod.snd
      let max_confidence := maxScore scores
      let docs := applyFilter r docs0
      if docs.isEmpty = true ∨ (max_confidence < r.confidence_threshold ∧ useWebSearch = true) then
        match r.web_retriever with
        | some web =>
            let web_docs := web ("SDK documentation for " ++ query)
            if docs.isEmpty then web_docs.take r.k
            else (docs ++ web_docs.filter
                (fun d => !((docs.map (fun x => x.page_content)).contains d.page_content))).take r.k
        | none => docs
      else docs
  | .error _ =>
      match r.web_retriever with
      | some web => (web ("SDK documentation for " ++ query)).take r.k
      | none => []

/-- A raw search hit of `WebSearchRetriever` (`result.get('link')`,
`result.get('url')`, title, snippet). -/
structure SearchResult where
  link : Option String
  url : Option String
  title : String
  snippet : String
deriving DecidableEq

/-- Python dict assignment on a document metadata mapping. -/
def metaSet (k v : String) (m : List (String × String)) : List (String × String) :=
  if m.any (fun p => p.1 == k) then m.map (fun p => if p.1 == k then (k, v) else p)
  else m ++ [(k, v)]

/-- Mirrors `WebSearchRetriever._get_relevant_documents` (web_search.py lines
91-145).  `results` is the outcome of the search-wrapper call (`.error` when
it raises, caught by the outer `except` which returns `[]`); `load` is the
per-link `WebBaseLoader.load()` call, whose errors are caught per-result and
skipped (`continue`). -/
def webSearchGetRelevantDocuments (results : Except String (List SearchResult))
    (load : String → Except String (List Document)) : List Document :=
  match results with
  | .error _ => []
  | .ok rs =>
      if rs.isEmpty then []
      else rs.foldl (fun docs res =>
        match res.link.orElse (fun _ => res.url) with
        | none => docs
        | some link =>
            match load link with
            | .error _ => docs
            | .ok web_docs =>
                docs ++ web_docs.map (fun d =>
                  let m1 := metaSet "source" link d.metadata
                  let m2 := metaSet "title" res.title m1
                  let m3 := metaSet "snippet" res.snippet m2
                  { d with metadata := m3 }))
        []

/-- The retrieval policy as claimed: the filter predicate is applied to the
primary results before ALL scoring decisions, so the emptiness test and the
maximum score are both taken over the filtered result set.  This definition
follows the claim's words, for comparison with `sdkGetRelevantDocuments`. -/
def sdkGetFilteredScoring (r : SDKRetriever) (useWebSearch : Bool)
    (vres : Except String (List (Document × ℚ))) (query : String) : List Document :=
  match vres with
  | .ok vector_results =>
      let fpairs := match r.filter_fn with
        | some f => vector_results.filter (fun (p : Document × ℚ) => f p.1)
        | none => vector_results
      let docs := fpairs.map Prod.fst
      let max_confidence := maxScore (fpairs.map Prod.snd)
      if docs.isEmpty = true ∨ (max_confidence < r.confidence_threshold ∧ useWebSearch = true) then
        match r.web_retriever with
        | some web =>
            let web_docs := web ("SDK documentation for " ++ query)
            if docs.isEmpty then web_docs.take r.k
            else (docs ++ web_docs.filter
                (fun d => !((docs.map (fun x => x.page_content)).contains d.page_content))).take r.k
        | none => docs
      else docs
  | .error _ =>
      match r.web_retriever with
      | some web => (web ("SDK documentation for " ++ query)).take r.k
      | none => []

/-! ### Concrete fixtures used by the testable properties -/

/-- First task of the two-task cyclic plan of the spec's termination test. -/
def taskA : CodeTask := ⟨"task_a", "first task", [], ["task_b"]⟩

/-- Second task of the two-task cyclic plan. -/
def taskB : CodeTask := ⟨"task_b", "second task", [], ["task_a"]⟩

/-- The cyclic plan `{A depends_on B, B depends_on A}`. -/
def planCyclic : CodePlan := { tasks := [taskA, taskB] }

/-- A fixed successful artifact with confidence 1. -/
def okOutput : CodeOutput :=
  { code := "pass", explanation := "ok", confidence := 1 }

/-- A generation chain that always succeeds with `okOutput`. -/
def chainOk : CodeTask → String → Except String CodeOutput := fun _ _ => .ok okOutput

def task1 : CodeTask := ⟨"t1", "first task", [], []⟩
def task2 : CodeTask := ⟨"t2", "second task", [], ["t1"]⟩
def task3 : CodeTask := ⟨"t3", "third task", [], ["t2"]⟩

/-- A 3-task linear chain t1 ← t2 ← t3. -/
def planLinear : CodePlan := { tasks := [task1, task2, task3] }

/-- A 2-task linear plan t1 ← t2. -/
def planPair : CodePlan := { tasks := [task1, task2] }

/-- A chain that raises exactly on task `t2`. -/
def chainFailT2 : CodeTask → String → Except String CodeOutput := fun t _ =>
  if t.id = "t2" then .error "boom" else .ok okOutput

/-- An artifact with a chosen confidence and advisory notes. -/
def confOutput (q : ℚ) (m s : String) : CodeOutput :=
  { code := "pass", explanation := "ok", confidence := q,
    missing_info := some [m], suggestions := some [s] }

/-- A chain giving tasks t1, t2, t3 confidences 9/10, 6/10, 3/10. -/
def chainConf : CodeTask → String → Except String CodeOutput := fun t _ =>
  if t.id = "t1" then .ok (confOutput (mkRat 9 10) "m1" "s1")
  else if t.id = "t2" then .ok (confOutput (mkRat 6 10) "m2" "s2")
  else .ok (confOutput (mkRat 3 10) "m3" "s3")

/-- A single task whose dependency id `ghost` names no task of its plan. -/
def taskDangling : CodeTask := ⟨"a1", "task with dangling dependency", [], ["ghost"]⟩

/-- An acyclic plan with a dangling dependency. -/
def planDangling : CodePlan := { tasks := [taskDangling] }

/-- The empty plan. -/
def planEmpty : CodePlan := { tasks := [] }


/-! ### Basic lemmas about the engine state machine -/

theorem runBatch_nil (gen : CodeTask → String → CodeOutput) (st : EngState) :
    runBatch gen st [] = st := rfl

theorem runBatch_cons (gen : CodeTask → String → CodeOutput) (st : EngState)
    (t : CodeTask) (ts : List CodeTask) :
    runBatch gen st (t :: ts) = runBatch gen (engineStep gen st t) ts := rfl

theorem engineStep_planTasks (gen : CodeTask → String → CodeOutput) (st : EngState)
    (t : CodeTask) : (engineStep gen st t).planTasks = st.planTasks := rfl

theorem runBatch_planTasks (gen : CodeTask → String → CodeOutput) :
    ∀ (batch : List CodeTask) (st : EngState), (runBatch gen st batch).planTasks = st.planTasks := by
  intro batch
  induction batch with
  | nil => intro st; rfl
  | cons t ts ih => intro st; rw [runBatch_cons, ih, engineStep_planTasks]

theorem engineIter_planTasks (gen : CodeTask → String → CodeOutput) (st : EngState) :
    (engineIter gen st).planTasks = st.planTasks := by
  unfold engineIter
  cases h : st.remaining with
  | nil => rfl
  | cons t0 rest => exact runBatch_planTasks gen _ st

theorem runBatch_remaining (gen : CodeTask → String → CodeOutput) :
    ∀ (batch : List CodeTask) (st : EngState),
      (runBatch gen st batch).remaining = batch.foldl (fun r t => r.erase t) st.remaining := by
  intro batch
  induction batch with
  | nil => intro st; rfl
  | cons t ts ih => intro st; rw [runBatch_cons, ih]; rfl

theorem runBatch_executed_tasks (gen : CodeTask → String → CodeOutput) :
    ∀ (batch : List CodeTask) (st : EngState),
      (runBatch gen st batch).executed.map (fun c => c.task) =
        st.executed.map (fun c => c.task) ++ batch := by
  intro batch
  induction batch with
  | nil => intro st; simp [runBatch_nil]
  | cons t ts ih =>
      intro st
      rw [runBatch_cons, ih]
      simp [engineStep]

theorem length_foldl_erase_le :
    ∀ (batch : List CodeTask) (r : List CodeTask),
      (batch.foldl (fun r t => r.erase t) r).length ≤ r.length := by
  intro batch
  induction batch with
  | nil => intro r; exact le_refl _
  | cons t ts ih =>
      intro r
      calc (List.foldl (fun r t => r.erase t) (r.erase t) ts).length
          ≤ (r.erase t).length := ih (r.erase t)
        _ ≤ r.length := List.length_erase_le t r

theorem length_foldl_erase_lt (batch : List CodeTask) (r : List CodeTask)
    (t : CodeTask) (ht : t ∈ r) (hb : batch ≠ []) (hhd : batch.head hb = t) :
    (batch.foldl (fun r t => r.erase t) r).length < r.length := by
  cases batch with
  | nil => exact absurd rfl hb
  | cons b bs =>
      have hbt : b = t := hhd
      subst hbt
      calc (List.foldl (fun r t => r.erase t) (r.erase b) bs).length
          ≤ (r.erase b).length := length_foldl_erase_le bs _
        _ = r.length - 1 := List.length_erase_of_mem ht
        _ < r.length := by
            have : 0 < r.length := List.length_pos.mpr (List.ne_nil_of_mem ht)
            omega

theorem engineIter_eq_of_cons (gen : CodeTask → String → CodeOutput) (st : EngState)
    (t0 : CodeTask) (rest : List CodeTask) (hr : st.remaining = t0 :: rest) :
    engineIter gen st = runBatch gen st
      (if (readyTasks st.completed (t0 :: rest)).isEmpty then [t0]
       else readyTasks st.completed (t0 :: rest)) := by
  unfold engineIter
  rw [hr]

theorem engineIter_remaining_lt (gen : CodeTask → String → CodeOutput) (st : EngState)
    (h : st.remaining ≠ []) :
    (engineIter gen st).remaining.length < st.remaining.length := by
  cases hr : st.remaining with
  | nil => exact absurd hr h
  | cons t0 rest =>
      rw [engineIter_eq_of_cons gen st t0 rest hr, runBatch_remaining, hr]
      by_cases hready : (readyTasks st.completed (t0 :: rest)).isEmpty
      · rw [if_pos hready]
        exact length_foldl_erase_lt _ _ t0 (List.mem_cons_self t0 rest) (by simp) rfl
      · rw [if_neg hready]
        cases hready2 : readyTasks st.completed (t0 :: rest) with
        | nil => rw [hready2] at hready; simp at hready
        | cons q qs =>
            have hq : q ∈ t0 :: rest := by
              refine List.mem_of_mem_filter (p := fun task =>
                task.dependencies.all (fun dep => st.completed.contains dep)) ?_
              show q ∈ readyTasks st.completed (t0 :: rest)
              rw [hready2]
              exact List.mem_cons_self q qs
            exact length_foldl_erase_lt _ _ q hq (by simp) rfl

theorem engineRun_zero (gen : CodeTask → String → CodeOutput) (st : EngState) :
    engineRun gen 0 st = st := rfl

theorem engineRun_succ (gen : CodeTask → String → CodeOutput) (fuel : Nat) (st : EngState) :
    engineRun gen (fuel + 1) st =
      if st.remaining.isEmpty then st else engineRun gen fuel (engineIter gen st) := rfl

theorem engineRunIters_zero (gen : CodeTask → String → CodeOutput) (st : EngState) :
    engineRunIters gen 0 st = 0 := rfl

theorem engineRunIters_succ (gen : CodeTask → String → CodeOutput) (fuel : Nat) (st : EngState) :
    engineRunIters gen (fuel + 1) st =
      if st.remaining.isEmpty then 0 else engineRunIters gen fuel (engineIter gen st) + 1 := rfl

theorem engineRun_of_nil (gen : CodeTask → String → CodeOutput) (st : EngState)
    (h : st.remaining = []) : ∀ fuel : Nat, engineRun gen fuel st = st := by
  intro fuel
  cases fuel with
  | zero => rfl
  | succ n => rw [engineRun_succ, if_pos (by simp [h])]

theorem engineRun_remaining_nil (gen : CodeTask → String → CodeOutput) :
    ∀ (fuel : Nat) (st : EngState), st.remaining.length ≤ fuel →
      (engineRun gen fuel st).remaining = [] := by
  intro fuel
  induction fuel with
  | zero =>
      intro st h
      rw [engineRun_zero]
      exact List.eq_nil_of_length_eq_zero (Nat.le_zero.mp h)
  | succ n ih =>
      intro st h
      rw [engineRun_succ]
      by_cases he : st.remaining.isEmpty
      · rw [if_pos he]
        exact List.isEmpty_iff.mp he
      · rw [if_neg he]
        apply ih
        have hne : st.remaining ≠ [] := by simpa [List.isEmpty_iff] using he
        have := engineIter_remaining_lt gen st hne
        omega

theorem engineRun_congr (gen : CodeTask → String → CodeOutput) :
    ∀ (f1 f2 : Nat) (st : EngState), st.remaining.length ≤ f1 → st.remaining.length ≤ f2 →
      engineRun gen f1 st = engineRun gen f2 st := by
  intro f1
  induction f1 with
  | zero =>
      intro f2 st h1 _
      have h0 : st.remaining = [] := List.eq_nil_of_length_eq_zero (Nat.le_zero.mp h1)
      rw [engineRun_zero, engineRun_of_nil gen st h0]
  | succ n ih =>
      intro f2 st h1 h2
      cases f2 with
      | zero =>
          have h0 : st.remaining = [] := List.eq_nil_of_length_eq_zero (Nat.le_zero.mp h2)
          rw [engineRun_zero, engineRun_of_nil gen st h0]
      | succ m =>
          rw [engineRun_succ, engineRun_succ]
          by_cases he : st.remaining.isEmpty
          · rw [if_pos he, if_pos he]
          · rw [if_neg he, if_neg he]
            have hne : st.remaining ≠ [] := by simpa [List.isEmpty_iff] using he
            have hlt := engineIter_remaining_lt gen st hne
            exact ih m (engineIter gen st) (by omega) (by omega)

theorem engineRunIters_le (gen : CodeTask → String → CodeOutput) :
    ∀ (fuel : Nat) (st : EngState), engineRunIters gen fuel st ≤ st.remaining.length := by
  intro fuel
  induction fuel with
  | zero => intro st; rw [engineRunIters_zero]; exact Nat.zero_le _
  | succ n ih =>
      intro st
      rw [engineRunIters_succ]
      by_cases he : st.remaining.isEmpty
      · rw [if_pos he]; exact Nat.zero_le _
      · rw [if_neg he]
        have hne : st.remaining ≠ [] := by simpa [List.isEmpty_iff] using he
        have hlt := engineIter_remaining_lt gen st hne
        have := ih (engineIter gen st)
        omega

theorem engineRunIters_congr (gen : CodeTask → String → CodeOutput) :
    ∀ (f1 f2 : Nat) (st : EngState), st.remaining.length ≤ f1 → st.remaining.length ≤ f2 →
      engineRunIters gen f1 st = engineRunIters gen f2 st := by
  intro f1
  induction f1 with
  | zero =>
      intro f2 st h1 _
      have h0 : st.remaining = [] := List.eq_nil_of_length_eq_zero (Nat.le_zero.mp h1)
      rw [engineRunIters_zero]
      cases f2 with
      | zero => rfl
      | succ m => rw [engineRunIters_succ, if_pos (by simp [h0])]
  | succ n ih =>
      intro f2 st h1 h2
      cases f2 with
      | zero =>
          have h0 : st.remaining = [] := List.eq_nil_of_length_eq_zero (Nat.le_zero.mp h2)
          rw [engineRunIters_zero, engineRunIters_succ, if_pos (by simp [h0])]
      | succ m =>
          rw [engineRunIters_succ, engineRunIters_succ]
          by_cases he : st.remaining.isEmpty
          · rw [if_pos he, if_pos he]
          · rw [if_neg he, if_neg he]
            have hne : st.remaining ≠ [] := by simpa [List.isEmpty_iff] using he
            have hlt := engineIter_remaining_lt gen st hne
            rw [ih m (engineIter gen st) (by omega) (by omega)]

theorem engineLoop_eq (gen : CodeTask → String → CodeOutput) (st : EngState) :
    engineLoop gen st =
      if st.remaining.isEmpty then st else engineLoop gen (engineIter gen st) := by
  unfold engineLoop
  cases hr : st.remaining with
  | nil => rw [engineRun_of_nil gen st hr, if_pos (by simp [hr])]
  | cons t0 rest =>
      have hne : st.remaining ≠ [] := by rw [hr]; simp
      rw [if_neg (by simp [hr])]
      rw [List.length_cons, engineRun_succ, if_neg (by simp [hr])]
      have hlt := engineIter_remaining_lt gen st hne
      rw [hr] at hlt
      exact engineRun_congr gen rest.length _ (engineIter gen st) (by simp at hlt; omega)
        (le_refl _)

theorem engineRun_invariant (gen : CodeTask → String → CodeOutput) (Inv : EngState → Prop)
    (pres : ∀ st, st.remaining ≠ [] → Inv st → Inv (engineIter gen st)) :
    ∀ (fuel : Nat) (st : EngState), Inv st → Inv (engineRun gen fuel st) := by
  intro fuel
  induction fuel with
  | zero => intro st h; exact h
  | succ n ih =>
      intro st h
      rw [engineRun_succ]
      by_cases he : st.remaining.isEmpty
      · rw [if_pos he]; exact h
      · rw [if_neg he]
        have hne : st.remaining ≠ [] := by simpa [List.isEmpty_iff] using he
        exact ih (engineIter gen st) (pres st hne h)

theorem engineLoop_remaining (gen : CodeTask → String → CodeOutput) (st : EngState) :
    (engineLoop gen st).remaining = [] :=
  engineRun_remaining_nil gen st.remaining.length st (le_refl _)

theorem engineLoop_planTasks (gen : CodeTask → String → CodeOutput) (st : EngState) :
    (engineLoop gen st).planTasks = st.planTasks := by
  exact engineRun_invariant gen (fun s => s.planTasks = st.planTasks)
    (fun s _ hs => by
      show (engineIter gen s).planTasks = st.planTasks
      rw [engineIter_planTasks]
      exact hs) st.remaining.length st rfl

/-! ### Each task leaves `remaining` exactly once: multiset accounting -/

theorem multiset_cons_le_erase (t : CodeTask) (ts r : List CodeTask)
    (h : (↑(t :: ts) : Multiset CodeTask) ≤ ↑r) :
    (↑ts : Multiset CodeTask) ≤ ↑(r.erase t) := by
  have hmem : t ∈ (↑r : Multiset CodeTask) := by
    have : t ∈ (↑(t :: ts) : Multiset CodeTask) := by simp
    exact Multiset.subset_of_le h this
  have hr : (↑r : Multiset CodeTask) = t ::ₘ (↑r : Multiset CodeTask).erase t :=
    (Multiset.cons_erase hmem).symm
  have h2 : t ::ₘ (↑ts : Multiset CodeTask) ≤ t ::ₘ (↑r : Multiset CodeTask).erase t := by
    rw [← hr]
    simpa using h
  have := (Multiset.cons_le_cons_iff t).mp h2
  simpa [Multiset.coe_erase] using this

theorem foldl_erase_multiset :
    ∀ (batch r : List CodeTask), (↑batch : Multiset CodeTask) ≤ ↑r →
      (↑(batch.foldl (fun r t => r.erase t) r) : Multiset CodeTask) = ↑r - ↑batch := by
  intro batch
  induction batch with
  | nil => intro r _; simp
  | cons t ts ih =>
      intro r h
      have hts : (↑ts : Multiset CodeTask) ≤ ↑(r.erase t) := multiset_cons_le_erase t ts r h
      calc (↑(List.foldl (fun r t => r.erase t) (r.erase t) ts) : Multiset CodeTask)
          = ↑(r.erase t) - ↑ts := ih (r.erase t) hts
        _ = (↑r : Multiset CodeTask).erase t - ↑ts := by rw [Multiset.coe_erase]
        _ = ↑r - ↑(t :: ts) := by
            have : (↑(t :: ts) : Multiset CodeTask) = t ::ₘ ↑ts := by simp
            rw [this, Multiset.sub_cons]

theorem engineIter_batch_le (st : EngState)
    (t0 : CodeTask) (rest : List CodeTask) (hr : st.remaining = t0 :: rest) :
    (↑(if (readyTasks st.completed (t0 :: rest)).isEmpty then [t0]
        else readyTasks st.completed (t0 :: rest)) : Multiset CodeTask) ≤ ↑st.remaining := by
  rw [hr]
  by_cases hready : (readyTasks st.completed (t0 :: rest)).isEmpty
  · rw [if_pos hready]
    exact Multiset.coe_le.mpr (List.singleton_sublist.mpr (List.mem_cons_self t0 rest)).subperm
  · rw [if_neg hready]
    exact Multiset.coe_le.mpr (List.filter_sublist _).subperm

theorem engineIter_exec_rem (gen : CodeTask → String → CodeOutput) (st : EngState) :
    (↑((engineIter gen st).executed.map (fun c => c.task)) : Multiset CodeTask) +
        ↑(engineIter gen st).remaining =
      ↑(st.executed.map (fun c => c.task)) + ↑st.remaining := by
  cases hr : st.remaining with
  | nil =>
      have : engineIter gen st = st := by unfold engineIter; rw [hr]
      rw [this, hr]
  | cons t0 rest =>
      rw [engineIter_eq_of_cons gen st t0 rest hr, runBatch_remaining, runBatch_executed_tasks]
      have hle := engineIter_batch_le st t0 rest hr
      rw [foldl_erase_multiset _ _ hle]
      generalize hb : (if (readyTasks st.completed (t0 :: rest)).isEmpty then [t0]
        else readyTasks st.completed (t0 :: rest)) = batch
      rw [hb] at hle
      have hcoe : (↑(st.executed.map (fun c => c.task) ++ batch) : Multiset CodeTask) =
          ↑(st.executed.map (fun c => c.task)) + ↑batch := by
        simp
      rw [hcoe, add_assoc, add_tsub_cancel_of_le hle, hr]

theorem engineLoop_exec_rem (gen : CodeTask → String → CodeOutput) (st : EngState) :
    (↑((engineLoop gen st).executed.map (fun c => c.task)) : Multiset CodeTask) +
        ↑(engineLoop gen st).remaining =
      ↑(st.executed.map (fun c => c.task)) + ↑st.remaining := by
  exact engineRun_invariant gen (fun s =>
      (↑(s.executed.map (fun c => c.task)) : Multiset CodeTask) + ↑s.remaining =
        ↑(st.executed.map (fun c => c.task)) + ↑st.remaining)
    (fun s _ hs => by
      show (↑((engineIter gen s).executed.map (fun c => c.task)) : Multiset CodeTask) +
          ↑(engineIter gen s).remaining = _
      rw [engineIter_exec_rem]
      exact hs) st.remaining.length st rfl

theorem engineLoop_executed_perm (gen : CodeTask → String → CodeOutput) (st : EngState) :
    ((engineLoop gen st).executed.map (fun c => c.task)).Perm
      (st.executed.map (fun c => c.task) ++ st.remaining) := by
  have h := engineLoop_exec_rem gen st
  rw [engineLoop_remaining] at h
  rw [← Multiset.coe_eq_coe]
  simpa using h

/-! ### The loop control (completed set, remaining list, output keys) does not
depend on the artifacts produced by the generation callback -/

theorem dictInsert_keys (k : String) (v : CodeOutput) (d : List (String × CodeOutput)) :
    (dictInsert k v d).map Prod.fst =
      if (d.map Prod.fst).any (fun x => x == k) then d.map Prod.fst
      else d.map Prod.fst ++ [k] := by
  unfold dictInsert
  have hcond : ((d.map Prod.fst).any (fun x => x == k)) = d.any (fun p => p.1 == k) := by
    induction d with
    | nil => rfl
    | cons p ps ih => simp only [List.map_cons, List.any_cons, ih]
  rw [hcond]
  by_cases h : d.any (fun p => p.1 == k)
  · rw [if_pos h, if_pos h, List.map_map]
    refine List.map_congr_left ?_
    intro p _
    by_cases hp : p.1 == k
    · simp only [Function.comp]
      rw [if_pos hp]
      exact (eq_of_beq hp).symm
    · simp only [Function.comp]
      rw [if_neg hp]
  · rw [if_neg h, if_neg h]
    simp

theorem engineStep_ctl (gen gen' : CodeTask → String → CodeOutput) (st st' : EngState)
    (t : CodeTask) (hc : st.completed = st'.completed) (hr : st.remaining = st'.remaining)
    (hk : st.task_outputs.map Prod.fst = st'.task_outputs.map Prod.fst) :
    (engineStep gen st t).completed = (engineStep gen' st' t).completed ∧
      (engineStep gen st t).remaining = (engineStep gen' st' t).remaining ∧
      (engineStep gen st t).task_outputs.map Prod.fst =
        (engineStep gen' st' t).task_outputs.map Prod.fst := by
  refine ⟨?_, ?_, ?_⟩
  · show insertCompleted t.id st.completed = insertCompleted t.id st'.completed
    rw [hc]
  · show st.remaining.erase t = st'.remaining.erase t
    rw [hr]
  · show (dictInsert t.id _ st.task_outputs).map Prod.fst =
      (dictInsert t.id _ st'.task_outputs).map Prod.fst
    rw [dictInsert_keys, dictInsert_keys, hk]

theorem runBatch_ctl (gen gen' : CodeTask → String → CodeOutput) :
    ∀ (batch : List CodeTask) (st st' : EngState),
      st.completed = st'.completed → st.remaining = st'.remaining →
      st.task_outputs.map Prod.fst = st'.task_outputs.map Prod.fst →
      (runBatch gen st batch).completed = (runBatch gen' st' batch).completed ∧
        (runBatch gen st batch).remaining = (runBatch gen' st' batch).remaining ∧
        (runBatch gen st batch).task_outputs.map Prod.fst =
          (runBatch gen' st' batch).task_outputs.map Prod.fst := by
  intro batch
  induction batch with
  | nil => intro st st' hc hr hk; exact ⟨hc, hr, hk⟩
  | cons t ts ih =>
      intro st st' hc hr hk
      rw [runBatch_cons, runBatch_cons]
      obtain ⟨h1, h2, h3⟩ := engineStep_ctl gen gen' st st' t hc hr hk
      exact ih _ _ h1 h2 h3

theorem engineIter_ctl (gen gen' : CodeTask → String → CodeOutput) (st st' : EngState)
    (hc : st.completed = st'.completed) (hr : st.remaining = st'.remaining)
    (hk : st.task_outputs.map Prod.fst = st'.task_outputs.map Prod.fst) :
    (engineIter gen st).completed = (engineIter gen' st').completed ∧
      (engineIter gen st).remaining = (engineIter gen' st').remaining ∧
      (engineIter gen st).task_outputs.map Prod.fst =
        (engineIter gen' st').task_outputs.map Prod.fst := by
  cases hrem : st.remaining with
  | nil =>
      have hrem' : st'.remaining = [] := by rw [← hr, hrem]
      have e1 : engineIter gen st = st := by unfold engineIter; rw [hrem]
      have e2 : engineIter gen' st' = st' := by unfold engineIter; rw [hrem']
      rw [e1, e2]
      exact ⟨hc, hr, hk⟩
  | cons t0 rest =>
      have hrem' : st'.remaining = t0 :: rest := by rw [← hr, hrem]
      rw [engineIter_eq_of_cons gen st t0 rest hrem,
        engineIter_eq_of_cons gen' st' t0 rest hrem', hc]
      exact runBatch_ctl gen gen' _ st st' hc hr hk

theorem engineRun_ctl (gen gen' : CodeTask → String → CodeOutput) :
    ∀ (fuel : Nat) (st st' : EngState),
      st.completed = st'.completed → st.remaining = st'.remaining →
      st.task_outputs.map Prod.fst = st'.task_outputs.map Prod.fst →
      (engineRun gen fuel st).completed = (engineRun gen' fuel st').completed ∧
        (engineRun gen fuel st).remaining = (engineRun gen' fuel st').remaining ∧
        (engineRun gen fuel st).task_outputs.map Prod.fst =
          (engineRun gen' fuel st').task_outputs.map Prod.fst := by
  intro fuel
  induction fuel with
  | zero => intro st st' hc hr hk; exact ⟨hc, hr, hk⟩
  | succ n ih =>
      intro st st' hc hr hk
      rw [engineRun_succ, engineRun_succ]
      by_cases he : st.remaining.isEmpty
      · rw [if_pos he, if_pos (by rw [← hr]; exact he)]
        exact ⟨hc, hr, hk⟩
      · rw [if_neg he, if_neg (by rw [← hr]; exact he)]
        obtain ⟨h1, h2, h3⟩ := engineIter_ctl gen gen' st st' hc hr hk
        exact ih _ _ h1 h2 h3

theorem engineRunIters_ctl (gen gen' : CodeTask → String → CodeOutput) :
    ∀ (fuel : Nat) (st st' : EngState),
      st.completed = st'.completed → st.remaining = st'.remaining →
      st.task_outputs.map Prod.fst = st'.task_outputs.map Prod.fst →
      engineRunIters gen fuel st = engineRunIters gen' fuel st' := by
  intro fuel
  induction fuel with
  | zero => intro st st' _ _ _; rfl
  | succ n ih =>
      intro st st' hc hr hk
      rw [engineRunIters_succ, engineRunIters_succ]
      by_cases he : st.remaining.isEmpty
      · rw [if_pos he, if_pos (by rw [← hr]; exact he)]
      · rw [if_neg he, if_neg (by rw [← hr]; exact he)]
        obtain ⟨h1, h2, h3⟩ := engineIter_ctl gen gen' st st' hc hr hk
        rw [ih _ _ h1 h2 h3]

theorem engineIters_chain_indep (chain chain' : CodeTask → String → Except String CodeOutput)
    (plan : CodePlan) :
    engineIters (generate_code_for_task chain) (initState plan) =
      engineIters (generate_code_for_task chain') (initState plan) :=
  engineRunIters_ctl _ _ _ (initState plan) (initState plan) rfl rfl rfl

theorem task_outputs_keys_chain_indep
    (chain chain' : CodeTask → String → Except String CodeOutput) (plan : CodePlan) :
    (generate_from_plan chain plan).task_outputs.map Prod.fst =
      (generate_from_plan chain' plan).task_outputs.map Prod.fst :=
  (engineRun_ctl _ _ _ (initState plan) (initState plan) rfl rfl rfl).2.2

/-! ### Coherence of the accumulated-code string with the invocation trace -/

theorem string_foldl_append :
    ∀ (l : List String) (s : String),
      List.foldl (· ++ ·) s l = s ++ List.foldl (· ++ ·) "" l := by
  intro l
  induction l with
  | nil => intro s; simp
  | cons x xs ih =>
      intro s
      simp only [List.foldl_cons]
      rw [ih (s ++ x), ih ("" ++ x)]
      simp [String.append_assoc]

theorem string_join_append (l1 l2 : List String) :
    String.join (l1 ++ l2) = String.join l1 ++ String.join l2 := by
  show List.foldl (· ++ ·) "" (l1 ++ l2) = _
  rw [List.foldl_append, string_foldl_append l2 (List.foldl (· ++ ·) "" l1)]
  rfl

/-- Default `ExecCall` used with `List.getD` when indexing a trace. -/
def defaultCall : ExecCall :=
  { task := { id := "", description := "", sdk_components := [], dependencies := [] }
    completedAtCall := []
    priorCode := ""
    result := { code := "", explanation := "", confidence := 0 } }

/-- Invariant tying the `all_code` accumulator to the invocation trace: the
accumulator is the concatenation of one `codeBlock` per executed task, and
every recorded `priorCode` is the concatenation of the blocks of the calls
that preceded it. -/
def TraceCoherent (st : EngState) : Prop :=
  st.all_code = String.join (st.executed.map codeBlock) ∧
  ∀ i : Nat, i < st.executed.length →
    (st.executed.getD i defaultCall).priorCode =
      String.join ((st.executed.take i).map codeBlock)

theorem engineStep_all_code (gen : CodeTask → String → CodeOutput) (st : EngState)
    (t : CodeTask) :
    (engineStep gen st t).all_code =
      st.all_code ++ "\n# Task: " ++ t.description ++ "\n" ++ (gen t st.all_code).code ++ "\n\n" :=
  rfl

theorem engineStep_executed (gen : CodeTask → String → CodeOutput) (st : EngState)
    (t : CodeTask) :
    (engineStep gen st t).executed =
      st.executed ++ [⟨t, st.completed, st.all_code, gen t st.all_code⟩] :=
  rfl

theorem string_join_singleton (s : String) : String.join [s] = s := by
  show "" ++ s = s
  simp

theorem engineStep_coherent (gen : CodeTask → String → CodeOutput) (st : EngState)
    (t : CodeTask) (h : TraceCoherent st) : TraceCoherent (engineStep gen st t) := by
  obtain ⟨h1, h2⟩ := h
  constructor
  · rw [engineStep_executed, engineStep_all_code, List.map_append, string_join_append, ← h1]
    have hsing : String.join ([⟨t, st.completed, st.all_code, gen t st.all_code⟩].map codeBlock)
        = codeBlock ⟨t, st.completed, st.all_code, gen t st.all_code⟩ := by
      rw [List.map_cons, List.map_nil, string_join_singleton]
    rw [hsing]
    unfold codeBlock
    simp [String.append_assoc]
  · intro i hi
    rw [engineStep_executed] at hi ⊢
    simp only [List.length_append, List.length_cons, List.length_nil] at hi
    by_cases hlt : i < st.executed.length
    · rw [List.getD_eq_getElem?_getD, List.getElem?_append_left hlt,
        List.take_append_of_le_length (Nat.le_of_lt hlt), ← List.getD_eq_getElem?_getD]
      exact h2 i hlt
    · have hieq : i = st.executed.length := by omega
      subst hieq
      rw [List.getD_eq_getElem?_getD, List.getElem?_append_right (le_refl _)]
      simp only [Nat.sub_self]
      rw [List.take_left]
      simpa using h1

theorem runBatch_coherent (gen : CodeTask → String → CodeOutput) :
    ∀ (batch : List CodeTask) (st : EngState),
      TraceCoherent st → TraceCoherent (runBatch gen st batch) := by
  intro batch
  induction batch with
  | nil => intro st h; exact h
  | cons t ts ih =>
      intro st h
      rw [runBatch_cons]
      exact ih _ (engineStep_coherent gen st t h)

theorem engineIter_coherent (gen : CodeTask → String → CodeOutput) (st : EngState)
    (h : TraceCoherent st) : TraceCoherent (engineIter gen st) := by
  cases hr : st.remaining with
  | nil =>
      have : engineIter gen st = st := by unfold engineIter; rw [hr]
      rwa [this]
  | cons t0 rest =>
      rw [engineIter_eq_of_cons gen st t0 rest hr]
      exact runBatch_coherent gen _ st h

theorem engineLoop_coherent (gen : CodeTask → String → CodeOutput) (st : EngState)
    (h : TraceCoherent st) : TraceCoherent (engineLoop gen st) :=
  engineRun_invariant gen TraceCoherent (fun s _ hs => engineIter_coherent gen s hs)
    st.remaining.length st h

theorem initState_coherent (plan : CodePlan) : TraceCoherent (initState plan) := by
  constructor
  · rfl
  · intro i hi
    simp [initState] at hi

/-! ### Under unique task ids, the outputs dict lists artifacts in completion order -/

/-- Invariant: the ids of executed and remaining tasks are pairwise distinct,
and the outputs dict is exactly the executed trace projected to
`(task id, artifact)` pairs, in completion order. -/
def OutputsMatchTrace (st : EngState) : Prop :=
  (st.executed.map (fun c => c.task.id) ++ st.remaining.map (fun t => t.id)).Nodup ∧
  st.task_outputs = st.executed.map (fun c => (c.task.id, c.result))

theorem engineStep_outputs (gen : CodeTask → String → CodeOutput) (st : EngState)
    (t : CodeTask) :
    (engineStep gen st t).task_outputs = dictInsert t.id (gen t st.all_code) st.task_outputs :=
  rfl

theorem engineStep_completed (gen : CodeTask → String → CodeOutput) (st : EngState)
    (t : CodeTask) :
    (engineStep gen st t).completed = insertCompleted t.id st.completed := rfl

theorem engineStep_remaining (gen : CodeTask → String → CodeOutput) (st : EngState)
    (t : CodeTask) :
    (engineStep gen st t).remaining = st.remaining.erase t := rfl

theorem engineStep_matchTrace (gen : CodeTask → String → CodeOutput) (st : EngState)
    (t : CodeTask) (ht : t ∈ st.remaining) (h : OutputsMatchTrace st) :
    OutputsMatchTrace (engineStep gen st t) := by
  obtain ⟨h1, h2⟩ := h
  have hperm : st.remaining.Perm (t :: st.remaining.erase t) := List.perm_cons_erase ht
  have hpermids : (st.remaining.map (fun t => t.id)).Perm
      (t.id :: (st.remaining.erase t).map (fun t => t.id)) := by
    have := hperm.map (fun t => t.id)
    simpa using this
  have hall : (st.executed.map (fun c => c.task.id) ++ st.remaining.map (fun t => t.id)).Perm
      (st.executed.map (fun c => c.task.id) ++
        t.id :: (st.remaining.erase t).map (fun t => t.id)) :=
    hpermids.append_left _
  have h1' : (st.executed.map (fun c => c.task.id) ++
      t.id :: (st.remaining.erase t).map (fun t => t.id)).Nodup := hall.nodup_iff.mp h1
  have hid_not_exec : t.id ∉ st.executed.map (fun c => c.task.id) := by
    intro hmem
    have hdisj := List.disjoint_of_nodup_append h1'
    exact hdisj hmem (by simp)
  constructor
  · rw [engineStep_executed, engineStep_remaining]
    have : (st.executed.map (fun c => c.task.id) ++ [t.id]) ++
        (st.remaining.erase t).map (fun t => t.id) =
        st.executed.map (fun c => c.task.id) ++
          t.id :: (st.remaining.erase t).map (fun t => t.id) := by
      simp
    simp only [List.map_append, List.map_cons, List.map_nil]
    rw [List.append_assoc]
    simpa using h1'
  · rw [engineStep_outputs, engineStep_executed, h2]
    unfold dictInsert
    have hany : (st.executed.map (fun c => (c.task.id, c.result))).any
        (fun p => p.1 == t.id) = false := by
      rw [List.any_eq_false]
      intro p hp
      obtain ⟨c, hc, rfl⟩ := List.mem_map.mp hp
      intro heq
      exact hid_not_exec (List.mem_map.mpr ⟨c, hc, eq_of_beq heq⟩)
    rw [hany]
    simp

theorem runBatch_matchTrace (gen : CodeTask → String → CodeOutput) :
    ∀ (batch : List CodeTask) (st : EngState),
      (↑batch : Multiset CodeTask) ≤ ↑st.remaining →
      OutputsMatchTrace st → OutputsMatchTrace (runBatch gen st batch) := by
  intro batch
  induction batch with
  | nil => intro st _ h; exact h
  | cons t ts ih =>
      intro st hle h
      rw [runBatch_cons]
      have htmem : t ∈ st.remaining := by
        have : t ∈ (↑st.remaining : Multiset CodeTask) :=
          Multiset.subset_of_le hle (by simp)
        simpa using this
      have hts : (↑ts : Multiset CodeTask) ≤ ↑(st.remaining.erase t) :=
        multiset_cons_le_erase t ts st.remaining hle
      refine ih (engineStep gen st t) ?_ (engineStep_matchTrace gen st t htmem h)
      rw [engineStep_remaining]
      exact hts

theorem engineIter_matchTrace (gen : CodeTask → String → CodeOutput) (st : EngState)
    (h : OutputsMatchTrace st) : OutputsMatchTrace (engineIter gen st) := by
  cases hr : st.remaining with
  | nil =>
      have : engineIter gen st = st := by unfold engineIter; rw [hr]
      rwa [this]
  | cons t0 rest =>
      rw [engineIter_eq_of_cons gen st t0 rest hr]
      exact runBatch_matchTrace gen _ st (engineIter_batch_le st t0 rest hr) h

theorem engineLoop_matchTrace (gen : CodeTask → String → CodeOutput) (st : EngState)
    (h : OutputsMatchTrace st) : OutputsMatchTrace (engineLoop gen st) :=
  engineRun_invariant gen OutputsMatchTrace (fun s _ hs => engineIter_matchTrace gen s hs)
    st.remaining.length st h

theorem initState_matchTrace (plan : CodePlan)
    (h : (plan.tasks.map (fun t => t.id)).Nodup) : OutputsMatchTrace (initState plan) := by
  constructor
  · simpa [initState] using h
  · rfl

/-! ### Dependency graph, cycles, and topological respect -/

/-- Direct dependency edge on task ids: some task of the plan has id `a` and
lists `b` among its dependencies. -/
def DepEdge (plan : CodePlan) (a b : String) : Prop :=
  ∃ t ∈ plan.tasks, t.id = a ∧ b ∈ t.dependencies

/-- A dependency cycle: a nonempty chain of dependency edges leading from some
id back to itself. -/
def HasDepCycle (plan : CodePlan) : Prop :=
  ∃ (a : String) (l : List String), List.Chain (DepEdge plan) a (l ++ [a])

/-- A plan with no dependency cycle. -/
def Acyclic (plan : CodePlan) : Prop := ¬ HasDepCycle plan

theorem chain_all_lt (m : String → Nat) (R : String → String → Prop)
    (hdec : ∀ x y, R x y → m y < m x) :
    ∀ (l : List String) (a : String), List.Chain R a l → ∀ b ∈ l, m b < m a := by
  intro l
  induction l with
  | nil => intro a _ b hb; simp at hb
  | cons x xs ih =>
      intro a hch b hb
      rw [List.chain_cons] at hch
      obtain ⟨hax, hxs⟩ := hch
      rcases List.mem_cons.mp hb with rfl | hb'
      · exact hdec a b hax
      · exact lt_trans (ih x hxs b hb') (hdec a x hax)

/-- A plan admitting a rank function that strictly drops along dependency
edges has no dependency cycle. -/
theorem acyclic_of_rank (plan : CodePlan) (m : String → Nat)
    (h : ∀ a b, DepEdge plan a b → m b < m a) : Acyclic plan := by
  rintro ⟨a, l, hch⟩
  have := chain_all_lt m (DepEdge plan) h (l ++ [a]) a hch a (by simp)
  omega

theorem chain_of_iterates (R : String → String → Prop) (g : Nat → String)
    (hg : ∀ n, R (g n) (g (n + 1))) :
    ∀ (len i : Nat), List.Chain R (g i) ((List.range len).map (fun k => g (i + 1 + k))) := by
  intro len
  induction len with
  | zero => intro i; simp
  | succ n ih =>
      intro i
      rw [List.range_succ_eq_map]
      simp only [List.map_cons, List.map_map]
      rw [List.chain_cons]
      refine ⟨by simpa using hg i, ?_⟩
      have hfun : ((fun k => g (i + 1 + k)) ∘ Nat.succ) = (fun k => g (i + 1 + 1 + k)) := by
        funext k
        simp only [Function.comp]
        congr 1
        omega
      rw [hfun]
      have := ih (i + 1)
      have harr : g (i + 1 + 0) = g (i + 1) := by norm_num
      simpa using this

theorem hasCycle_of_repeat (plan : CodePlan) (g : Nat → String)
    (hedge : ∀ n, DepEdge plan (g n) (g (n + 1))) (i j : Nat) (hij : i < j)
    (heq : g i = g j) : HasDepCycle plan := by
  refine ⟨g i, (List.range (j - i - 1)).map (fun k => g (i + 1 + k)), ?_⟩
  have hchain := chain_of_iterates (DepEdge plan) g hedge (j - i) i
  have hsplit : List.range (j - i) = List.range (j - i - 1) ++ [j - i - 1] := by
    have h1 : j - i = (j - i - 1) + 1 := by omega
    nth_rewrite 1 [h1]
    rw [List.range_succ]
  rw [hsplit, List.map_append, List.map_cons, List.map_nil] at hchain
  have hlast : g (i + 1 + (j - i - 1)) = g i := by
    have h2 : i + 1 + (j - i - 1) = j := by omega
    rw [h2]
    exact heq.symm
  rw [hlast] at hchain
  exact hchain

/-- In an acyclic plan, any nonempty remaining list whose unsatisfied
dependencies all point back into the remaining list contains a ready task.
This is the reason the forced-progress branch is never taken on acyclic,
dependency-closed plans. -/
theorem exists_ready_of_acyclic (plan : CodePlan) (completed : List String)
    (remaining : List CodeTask) (hacyc : Acyclic plan) (hne : remaining ≠ [])
    (hsub : ∀ t ∈ remaining, t ∈ plan.tasks)
    (hclosed : ∀ t ∈ remaining, ∀ d ∈ t.dependencies,
      d ∈ completed ∨ d ∈ remaining.map (fun t => t.id)) :
    ∃ t ∈ remaining, ∀ d ∈ t.dependencies, d ∈ completed := by
  by_contra hcon
  push_neg at hcon
  have hstep : ∀ s : {t // t ∈ remaining}, ∃ u : {t // t ∈ remaining},
      DepEdge plan s.1.id u.1.id := by
    rintro ⟨t, ht⟩
    obtain ⟨d, hd, hdc⟩ := hcon t ht
    rcases hclosed t ht d hd with hcomp | hrem
    · exact absurd hcomp hdc
    · obtain ⟨u, hu, huid⟩ := List.mem_map.mp hrem
      exact ⟨⟨u, hu⟩, t, hsub t ht, rfl, by rw [huid]; exact hd⟩
  choose f hf using hstep
  obtain ⟨t0, ht0⟩ : ∃ t, t ∈ remaining := by
    cases remaining with
    | nil => exact absurd rfl hne
    | cons x xs => exact ⟨x, List.mem_cons_self x xs⟩
  have hedge : ∀ n : Nat,
      DepEdge plan ((f^[n] ⟨t0, ht0⟩).1.id) ((f^[n + 1] ⟨t0, ht0⟩).1.id) := by
    intro n
    rw [Function.iterate_succ_apply' f n ⟨t0, ht0⟩]
    exact hf (f^[n] ⟨t0, ht0⟩)
  have hmaps : ∀ i ∈ Finset.range (remaining.length + 1),
      (f^[i] ⟨t0, ht0⟩).1.id ∈ (remaining.map (fun t => t.id)).toFinset := by
    intro i _
    exact List.mem_toFinset.mpr
      (List.mem_map.mpr ⟨(f^[i] ⟨t0, ht0⟩).1, (f^[i] ⟨t0, ht0⟩).2, rfl⟩)
  have hcard : (remaining.map (fun t => t.id)).toFinset.card <
      (Finset.range (remaining.length + 1)).card := by
    have h1 := List.toFinset_card_le (remaining.map (fun t => t.id))
    rw [Finset.card_range]
    simp only [List.length_map] at h1
    omega
  obtain ⟨i, _, j, _, hij, hgij⟩ :=
    Finset.exists_ne_map_eq_of_card_lt_of_maps_to hcard hmaps
  rcases Nat.lt_or_ge i j with hlt | hge
  · exact hacyc (hasCycle_of_repeat plan _ hedge i j hlt hgij)
  · have hlt : j < i := by omega
    exact hacyc (hasCycle_of_repeat plan _ hedge j i hlt hgij.symm)

/-- Invariant of the topological-respect proof: remaining tasks come from the
plan, every dependency of a remaining task is either completed or still
remaining, and every recorded invocation had all its dependencies completed. -/
def TopoInv (plan : CodePlan) (st : EngState) : Prop :=
  (∀ t ∈ st.remaining, t ∈ plan.tasks) ∧
  (∀ t ∈ st.remaining, ∀ d ∈ t.dependencies,
    d ∈ st.completed ∨ d ∈ st.remaining.map (fun t => t.id)) ∧
  (∀ c ∈ st.executed, ∀ d ∈ c.task.dependencies, d ∈ c.completedAtCall)

theorem mem_insertCompleted (a i : String) (c : List String) :
    a ∈ insertCompleted i c ↔ a = i ∨ a ∈ c := by
  unfold insertCompleted
  by_cases h : c.contains i
  · rw [if_pos h]
    have hic : i ∈ c := by simpa using h
    constructor
    · exact fun ha => Or.inr ha
    · rintro (rfl | ha)
      · exact hic
      · exact ha
  · rw [if_neg h]
    simp [or_comm]

theorem engineStep_topo (plan : CodePlan) (gen : CodeTask → String → CodeOutput)
    (st : EngState) (t : CodeTask)
    (hdeps : ∀ d ∈ t.dependencies, d ∈ st.completed)
    (h : TopoInv plan st) : TopoInv plan (engineStep gen st t) := by
  obtain ⟨h1, h2, h3⟩ := h
  refine ⟨?_, ?_, ?_⟩
  · intro u hu
    rw [engineStep_remaining] at hu
    exact h1 u (List.mem_of_mem_erase hu)
  · intro u hu d hd
    rw [engineStep_remaining] at hu ⊢
    rw [engineStep_completed]
    have hu' : u ∈ st.remaining := List.mem_of_mem_erase hu
    rcases h2 u hu' d hd with hc | hr
    · exact Or.inl ((mem_insertCompleted d t.id st.completed).mpr (Or.inr hc))
    · by_cases hdt : d = t.id
      · exact Or.inl ((mem_insertCompleted d t.id st.completed).mpr (Or.inl hdt))
      · right
        obtain ⟨v, hv, hvid⟩ := List.mem_map.mp hr
        refine List.mem_map.mpr ⟨v, ?_, hvid⟩
        have hvt : v ≠ t := fun hvt => hdt (by rw [← hvid, hvt])
        exact (List.mem_erase_of_ne hvt).mpr hv
  · intro c hc d hd
    rw [engineStep_executed] at hc
    rcases List.mem_append.mp hc with hold | hnew
    · exact h3 c hold d hd
    · have hceq : c = ⟨t, st.completed, st.all_code, gen t st.all_code⟩ := by
        simpa using hnew
      subst hceq
      exact hdeps d hd

theorem runBatch_topo (plan : CodePlan) (gen : CodeTask → String → CodeOutput) :
    ∀ (batch : List CodeTask) (st : EngState),
      (↑batch : Multiset CodeTask) ≤ ↑st.remaining →
      (∀ u ∈ batch, ∀ d ∈ u.dependencies, d ∈ st.completed) →
      TopoInv plan st → TopoInv plan (runBatch gen st batch) := by
  intro batch
  induction batch with
  | nil => intro st _ _ h; exact h
  | cons t ts ih =>
      intro st hle hready h
      rw [runBatch_cons]
      have htmem : t ∈ st.remaining := by
        have : t ∈ (↑st.remaining : Multiset CodeTask) :=
          Multiset.subset_of_le hle (by simp)
        simpa using this
      have hstep := engineStep_topo plan gen st t
        (hready t (List.mem_cons_self t ts)) h
      refine ih (engineStep gen st t) ?_ ?_ hstep
      · rw [engineStep_remaining]
        exact multiset_cons_le_erase t ts st.remaining hle
      · intro u hu d hd
        rw [engineStep_completed, mem_insertCompleted]
        exact Or.inr (hready u (List.mem_cons_of_mem t hu) d hd)

theorem engineIter_topo (plan : CodePlan) (gen : CodeTask → String → CodeOutput)
    (st : EngState) (hacyc : Acyclic plan) (hne : st.remaining ≠ [])
    (h : TopoInv plan st) : TopoInv plan (engineIter gen st) := by
  obtain ⟨h1, h2, h3⟩ := h
  obtain ⟨t, htmem, htdeps⟩ :=
    exists_ready_of_acyclic plan st.completed st.remaining hacyc hne h1 h2
  have htready : t ∈ readyTasks st.completed st.remaining := by
    unfold readyTasks
    refine List.mem_filter.mpr ⟨htmem, ?_⟩
    rw [List.all_eq_true]
    intro d hd
    simpa using htdeps d hd
  cases hr : st.remaining with
  | nil => exact absurd hr hne
  | cons t0 rest =>
      rw [engineIter_eq_of_cons gen st t0 rest hr]
      rw [hr] at htready
      have hnonempty : (readyTasks st.completed (t0 :: rest)).isEmpty = false := by
        cases hready : readyTasks st.completed (t0 :: rest) with
        | nil => rw [hready] at htready; simp at htready
        | cons _ _ => rfl
      rw [if_neg (by simp [hnonempty])]
      refine runBatch_topo plan gen _ st ?_ ?_ ⟨h1, h2, h3⟩
      · rw [hr]
        exact Multiset.coe_le.mpr (List.filter_sublist _).subperm
      · intro u hu d hd
        have hu2 := List.mem_filter.mp hu
        have := (List.all_eq_true.mp hu2.2) d hd
        simpa using this

theorem engineLoop_topo (plan : CodePlan) (gen : CodeTask → String → CodeOutput)
    (st : EngState) (hacyc : Acyclic plan) (h : TopoInv plan st) :
    TopoInv plan (engineLoop gen st) :=
  engineRun_invariant gen (TopoInv plan)
    (fun s hne hs => engineIter_topo plan gen s hacyc hne hs) st.remaining.length st h

/-- All dependency ids of a plan name tasks of the plan (the data-model
invariant the spec states for `TaskGraph`). -/
def DepsPresent (plan : CodePlan) : Prop :=
  ∀ t ∈ plan.tasks, ∀ d ∈ t.dependencies, d ∈ plan.tasks.map (fun t => t.id)

theorem initState_topo (plan : CodePlan) (hdeps : DepsPresent plan) :
    TopoInv plan (initState plan) := by
  refine ⟨fun t ht => ht, ?_, ?_⟩
  · intro t ht d hd
    exact Or.inr (hdeps t ht d hd)
  · intro c hc
    simp [initState] at hc

/-! ### Retrieval-layer lemmas -/

theorem applyFilter_some (r : SDKRetriever) (f : Document → Bool) (docs : List Document)
    (hf : r.filter_fn = some f) : applyFilter r docs = docs.filter f := by
  unfold applyFilter
  rw [hf]
  show (if docs.isEmpty = true then docs else List.filter f docs) = List.filter f docs
  by_cases h : docs.isEmpty
  · rw [if_pos h, List.isEmpty_iff.mp h, List.filter_nil]
  · rw [if_neg h]

theorem applyFilter_length_le (r : SDKRetriever) (docs : List Document) :
    (applyFilter r docs).length ≤ docs.length := by
  unfold applyFilter
  cases r.filter_fn with
  | none => exact le_refl _
  | some f =>
      show (if docs.isEmpty = true then docs else List.filter f docs).length ≤ docs.length
      by_cases h : docs.isEmpty
      · rw [if_pos h]
      · rw [if_neg h]
        exact List.length_filter_le f docs

/-! ### Concrete retrieval fixtures -/

def docA : Document := ⟨"a", []⟩
def docB : Document := ⟨"b", []⟩
def docW : Document := ⟨"w", []⟩

/-- Retriever with threshold 0.85, `k = 5`, a filter rejecting content `"a"`,
and a secondary source returning a single fixed document. -/
def retrieverC5 : SDKRetriever :=
  { confidence_threshold := mkRat 17 20
    k := 5
    filter_fn := some (fun d => !(d.page_content == "a"))
    web_retriever := some (fun _ => [docW]) }

/-- Primary results scoring 0.9 (filtered out) and 0.5 (kept). -/
def pairsC5 : List (Document × ℚ) := [(docA, mkRat 9 10), (docB, mkRat 1 2)]

/-- Primary results whose single document scores 0.5, below the 0.85
threshold. -/
def pairsLow : List (Document × ℚ) := [(docB, mkRat 1 2)]

/-! ### Claim theorems -/

/-- C10: `generate_from_plan` leaves its input unchanged.  The engine removes
tasks only from its working copy (`remaining_tasks = plan.tasks.copy()`);
`planTasks`, which models the caller's `plan.tasks` object and is written by
no engine operation, is exactly the original task sequence when the loop
finishes. -/
theorem generate_from_plan_preserves_plan
    (chain : CodeTask → String → Except String CodeOutput) (plan : CodePlan) :
    (engineLoop (generate_code_for_task chain) (initState plan)).planTasks = plan.tasks := by
  rw [engineLoop_planTasks]
  rfl

/-- C4: a raising generation chain never propagates out of
`generate_code_for_task`: the artifact returned has confidence exactly 0, its
code starts with a human-readable error marker naming the task description,
and `missing_info` is the nonempty retry hint.  Moreover, in the concrete
3-task linear chain whose `t2` generation raises, the other two tasks still
produce artifacts: the result holds 3 entries with confidences 1, 0, 1, and
only the failed task carries a (nonempty, one-element) `missing_info`. -/
theorem generate_code_for_task_error_handling :
    (∀ (chain : CodeTask → String → Except String CodeOutput) (task : CodeTask)
        (prev e : String), chain task prev = .error e →
      (generate_code_for_task chain task prev).confidence = 0 ∧
        (∃ s, (generate_code_for_task chain task prev).code =
          "# Error generating code for: " ++ task.description ++ s) ∧
        (generate_code_for_task chain task prev).missing_info =
          some ["Error occurred during generation. Please try again with more detail."]) ∧
    ((generate_from_plan chainFailT2 planLinear).task_outputs.map
        (fun p => (p.1, p.2.confidence)) = [("t1", 1), ("t2", 0), ("t3", 1)] ∧
      (generate_from_plan chainFailT2 planLinear).task_outputs.map
        (fun p => (p.2.missing_info.getD []).length) = [0, 1, 0]) := by
  constructor
  · intro chain task prev e he
    unfold generate_code_for_task
    rw [he]
    refine ⟨rfl, ⟨"\n# " ++ e ++ "\n\n# Please try again with more specific instructions", ?_⟩, rfl⟩
    simp [String.append_assoc]
  · exact ⟨by decide, by decide⟩

/-- Witness for C4 at the concrete failing task `t2`. -/
theorem generate_code_for_task_error_handling_witness :
    chainFailT2 task2 "" = Except.error "boom" ∧
      ((generate_code_for_task chainFailT2 task2 "").confidence = 0 ∧
        (∃ s, (generate_code_for_task chainFailT2 task2 "").code =
          "# Error generating code for: " ++ task2.description ++ s) ∧
        (generate_code_for_task chainFailT2 task2 "").missing_info =
          some ["Error occurred during generation. Please try again with more detail."]) :=
  ⟨rfl, generate_code_for_task_error_handling.1 chainFailT2 task2 "" "boom" rfl⟩

/-- C7: retrieval failure semantics.  A raising primary source never
propagates: with a secondary source configured, the augmented query is
retried against it once and its first `k` results are returned; with none,
the result is empty.  A raising secondary-source search is caught inside
`WebSearchRetriever` and degrades to an empty result. -/
theorem sdkRetriever_error_fallback :
    (∀ (r : SDKRetriever) (useWebSearch : Bool) (e query : String)
        (web : String → List Document), r.web_retriever = some web →
      sdkGetRelevantDocuments r useWebSearch (.error e) query =
        (web ("SDK documentation for " ++ query)).take r.k) ∧
    (∀ (r : SDKRetriever) (useWebSearch : Bool) (e query : String),
        r.web_retriever = none →
      sdkGetRelevantDocuments r useWebSearch (.error e) query = []) ∧
    (∀ (e : String) (load : String → Except String (List Document)),
      webSearchGetRelevantDocuments (.error e) load = []) := by
  refine ⟨?_, ?_, ?_⟩
  · intro r uw e query web hweb
    unfold sdkGetRelevantDocuments
    rw [hweb]
  · intro r uw e query hweb
    unfold sdkGetRelevantDocuments
    rw [hweb]
  · intro e load
    rfl

/-- Witness for C7: a concrete retriever with a configured secondary source. -/
theorem sdkRetriever_error_fallback_witness :
    retrieverC5.web_retriever = some (fun _ => [docW]) ∧
      sdkGetRelevantDocuments retrieverC5 true (.error "down") "q" =
        ((fun _ : String => [docW]) ("SDK documentation for " ++ "q")).take retrieverC5.k :=
  ⟨rfl, sdkRetriever_error_fallback.1 retrieverC5 true "down" "q" (fun _ => [docW]) rfl⟩

/-- C9: every execution path of the retriever returns at most `k` documents,
assuming the primary source honors the `k` bound it is called with (it is
invoked with `k = self.k`): the normal path passes through at most the
primary results, and all fallback paths truncate with `take k`. -/
theorem sdkRetriever_k_bound (r : SDKRetriever) (useWebSearch : Bool)
    (vres : Except String (List (Document × ℚ))) (query : String)
    (hlen : ∀ pairs, vres = Except.ok pairs → pairs.length ≤ r.k) :
    (sdkGetRelevantDocuments r useWebSearch vres query).length ≤ r.k := by
  have hkt : ∀ (l : List Document), (l.take r.k).length ≤ r.k := by
    intro l
    rw [List.length_take]
    exact min_le_left _ _
  cases vres with
  | error e =>
      unfold sdkGetRelevantDocuments
      cases hweb : r.web_retriever with
      | some web => exact hkt _
      | none => simp
  | ok pairs =>
      have hbase : (applyFilter r (pairs.map Prod.fst)).length ≤ r.k := by
        calc (applyFilter r (pairs.map Prod.fst)).length
            ≤ (pairs.map Prod.fst).length := applyFilter_length_le r _
          _ = pairs.length := by simp
          _ ≤ r.k := hlen pairs rfl
      simp only [sdkGetRelevantDocuments]
      split
      · split
        · split
          · exact hkt _
          · exact hkt _
        · exact hbase
      · exact hbase

/-- Witness for C9 at a concrete bounded input. -/
theorem sdkRetriever_k_bound_witness :
    (∀ pairs, (Except.ok pairsC5 : Except String (List (Document × ℚ))) = Except.ok pairs →
        pairs.length ≤ retrieverC5.k) ∧
      (sdkGetRelevantDocuments retrieverC5 true (.ok pairsC5) "q").length ≤ retrieverC5.k :=
  ⟨fun pairs h => by cases h; decide,
    sdkRetriever_k_bound retrieverC5 true (.ok pairsC5) "q" (fun pairs h => by cases h; decide)⟩

/-- C6: merge policy of the fallback branch.  Whenever the secondary source is
consulted (the fallback condition holds and a secondary retriever is
configured): with nonempty primary results the result is the primary
results followed by the secondary results not duplicating any primary
content, truncated to `k`; with empty primary results it is the secondary
results truncated to `k`. -/
theorem sdkRetriever_merge_policy (r : SDKRetriever) (useWebSearch : Bool)
    (pairs : List (Document × ℚ)) (query : String) (web : String → List Document)
    (hweb : r.web_retriever = some web)
    (hcond : (applyFilter r (pairs.map Prod.fst)).isEmpty = true ∨
      (maxScore (pairs.map Prod.snd) < r.confidence_threshold ∧ useWebSearch = true)) :
    sdkGetRelevantDocuments r useWebSearch (.ok pairs) query =
      (if (applyFilter r (pairs.map Prod.fst)).isEmpty
       then (web ("SDK documentation for " ++ query)).take r.k
       else (applyFilter r (pairs.map Prod.fst) ++
          (web ("SDK documentation for " ++ query)).filter
            (fun d => !(((applyFilter r (pairs.map Prod.fst)).map
              (fun x => x.page_content)).contains d.page_content))).take r.k) := by
  simp only [sdkGetRelevantDocuments]
  rw [if_pos hcond, hweb]

/-- Witness for C6: low-confidence primary results trigger the merge. -/
theorem sdkRetriever_merge_policy_witness :
    retrieverC5.web_retriever = some (fun _ => [docW]) ∧
      ((applyFilter retrieverC5 (pairsLow.map Prod.fst)).isEmpty = true ∨
        (maxScore (pairsLow.map Prod.snd) < retrieverC5.confidence_threshold ∧ true = true)) ∧
      sdkGetRelevantDocuments retrieverC5 true (.ok pairsLow) "q" =
        (if (applyFilter retrieverC5 (pairsLow.map Prod.fst)).isEmpty
         then (((fun _ : String => [docW]) ("SDK documentation for " ++ "q")).take retrieverC5.k)
         else (applyFilter retrieverC5 (pairsLow.map Prod.fst) ++
            ((fun _ : String => [docW]) ("SDK documentation for " ++ "q")).filter
              (fun d => !(((applyFilter retrieverC5 (pairsLow.map Prod.fst)).map
                (fun x => x.page_content)).contains d.page_content))).take retrieverC5.k) :=
  ⟨rfl, by decide,
    sdkRetriever_merge_policy retrieverC5 true pairsLow "q" (fun _ => [docW]) rfl (by decide)⟩

/-- C5 counterexample: on primary results scoring 0.9 (a document the filter
rejects) and 0.5, the code returns only the surviving primary document, while
the claimed policy — filter applied before BOTH scoring decisions, `max_score`
over the filtered set — would fall back to the secondary source and merge its
document: the two disagree at this input, because the code computes
`max_confidence` over the unfiltered scores (line 60) before filtering
(line 65). -/
theorem sdkRetriever_filter_scoring_cex :
    sdkGetRelevantDocuments retrieverC5 true (.ok pairsC5) "q" = [docB] ∧
      sdkGetFilteredScoring retrieverC5 true (.ok pairsC5) "q" = [docB, docW] ∧
      sdkGetRelevantDocuments retrieverC5 true (.ok pairsC5) "q" ≠
        sdkGetFilteredScoring retrieverC5 true (.ok pairsC5) "q" :=
  ⟨by decide, by decide, by decide⟩

/-- C5 (amended): with a filter predicate configured, the emptiness test of
the fallback trigger is evaluated on the filtered primary results, while the
`max_score` compared against the confidence threshold is the maximum over the
unfiltered primary scores (0 if none). -/
theorem sdkRetriever_filter_scoring (r : SDKRetriever) (f : Document → Bool)
    (useWebSearch : Bool) (pairs : List (Document × ℚ)) (query : String)
    (hf : r.filter_fn = some f) :
    sdkGetRelevantDocuments r useWebSearch (.ok pairs) query =
      (if ((pairs.map Prod.fst).filter f).isEmpty = true ∨
          (maxScore (pairs.map Prod.snd) < r.confidence_threshold ∧ useWebSearch = true) then
        match r.web_retriever with
        | some web =>
            if ((pairs.map Prod.fst).filter f).isEmpty
            then (web ("SDK documentation for " ++ query)).take r.k
            else ((pairs.map Prod.fst).filter f ++
              (web ("SDK documentation for " ++ query)).filter
                (fun d => !((((pairs.map Prod.fst).filter f).map
                  (fun x => x.page_content)).contains d.page_content))).take r.k
        | none => (pairs.map Prod.fst).filter f
       else (pairs.map Prod.fst).filter f) := by
  simp only [sdkGetRelevantDocuments, applyFilter_some r f (pairs.map Prod.fst) hf]

/-- Witness for the amended C5 at the counterexample input. -/
theorem sdkRetriever_filter_scoring_witness :
    retrieverC5.filter_fn = some (fun d => !(d.page_content == "a")) ∧
      sdkGetRelevantDocuments retrieverC5 true (.ok pairsC5) "q" =
        (if ((pairsC5.map Prod.fst).filter (fun d => !(d.page_content == "a"))).isEmpty = true ∨
            (maxScore (pairsC5.map Prod.snd) < retrieverC5.confidence_threshold ∧
              true = true) then
          match retrieverC5.web_retriever with
          | some web =>
              if ((pairsC5.map Prod.fst).filter (fun d => !(d.page_content == "a"))).isEmpty
              then (web ("SDK documentation for " ++ "q")).take retrieverC5.k
              else ((pairsC5.map Prod.fst).filter (fun d => !(d.page_content == "a")) ++
                (web ("SDK documentation for " ++ "q")).filter
                  (fun d => !((((pairsC5.map Prod.fst).filter
                    (fun d => !(d.page_content == "a"))).map
                    (fun x => x.page_content)).contains d.page_content))).take retrieverC5.k
          | none => (pairsC5.map Prod.fst).filter (fun d => !(d.page_content == "a"))
         else (pairsC5.map Prod.fst).filter (fun d => !(d.page_content == "a"))) :=
  ⟨rfl, sdkRetriever_filter_scoring retrieverC5 (fun d => !(d.page_content == "a"))
    true pairsC5 "q" rfl⟩

/-- C8 counterexample: the block appended to the accumulator per completed
task carries a LEADING newline (line 199 appends "\n# Task: {description}\n"),
so the prior code of the second call in the 2-task linear plan is NOT the
concatenation of blocks of the claimed form "# Task: {description}\n{code}\n\n". -/
theorem accumulated_code_block_cex :
    ((executionTrace chainOk planPair).getD 1 defaultCall).priorCode =
        "\n# Task: first task\npass\n\n" ∧
      "\n# Task: first task\npass\n\n" ≠ "# Task: first task\npass\n\n" :=
  ⟨by decide, by decide⟩

/-- C8 (amended): the prior-code string passed to the i-th generation call
equals the concatenation, in completion order, of one block of the exact form
"\n# Task: {description}\n{code}\n\n" per previously completed task — in
particular it is empty for the first call. -/
theorem accumulated_code_blocks (chain : CodeTask → String → Except String CodeOutput)
    (plan : CodePlan) (i : Nat) (hi : i < (executionTrace chain plan).length) :
    ((executionTrace chain plan).getD i defaultCall).priorCode =
      String.join (((executionTrace chain plan).take i).map codeBlock) :=
  (engineLoop_coherent (generate_code_for_task chain) (initState plan)
    (initState_coherent plan)).2 i hi

/-- Witness for the amended C8: the second call of the 2-task linear plan. -/
theorem accumulated_code_blocks_witness :
    1 < (executionTrace chainOk planPair).length ∧
      ((executionTrace chainOk planPair).getD 1 defaultCall).priorCode =
        String.join (((executionTrace chainOk planPair).take 1).map codeBlock) :=
  ⟨by decide, accumulated_code_blocks chainOk planPair 1 (by decide)⟩

/-- C1: termination and single execution.  For every plan — cyclic or dangling
dependencies included — the loop performs at most |plan.tasks| outer
iterations; the final remaining list is empty; granting more fuel changes
neither the final state nor the iteration count (the loop has truly
terminated); the tasks handed to the generation callback are exactly the
plan's tasks, each exactly once (as a multiset); and on the 2-task cyclic plan
the loop performs exactly 2 iterations yielding 2 entries in
`task_outputs`, whatever the generation chain does. -/
theorem generate_from_plan_terminates
    (chain : CodeTask → String → Except String CodeOutput) (plan : CodePlan) :
    engineIters (generate_code_for_task chain) (initState plan) ≤ plan.tasks.length ∧
    (engineLoop (generate_code_for_task chain) (initState plan)).remaining = [] ∧
    (∀ fuel : Nat, plan.tasks.length ≤ fuel →
      engineRun (generate_code_for_task chain) fuel (initState plan) =
        engineLoop (generate_code_for_task chain) (initState plan) ∧
      engineRunIters (generate_code_for_task chain) fuel (initState plan) =
        engineIters (generate_code_for_task chain) (initState plan)) ∧
    ((engineLoop (generate_code_for_task chain) (initState plan)).executed.map
        (fun c => c.task)).Perm plan.tasks ∧
    (engineIters (generate_code_for_task chain) (initState planCyclic) = 2 ∧
      (generate_from_plan chain planCyclic).task_outputs.length = 2) := by
  refine ⟨engineRunIters_le _ _ _, engineLoop_remaining _ _, ?_, ?_, ?_, ?_⟩
  · intro fuel hf
    constructor
    · exact engineRun_congr _ fuel plan.tasks.length (initState plan) hf (le_refl _)
    · exact engineRunIters_congr _ fuel plan.tasks.length (initState plan) hf (le_refl _)
  · have h := engineLoop_executed_perm (generate_code_for_task chain) (initState plan)
    simpa [initState] using h
  · rw [engineIters_chain_indep chain chainOk planCyclic]
    decide
  · have hk := task_outputs_keys_chain_indep chain chainOk planCyclic
    have h1 : (generate_from_plan chain planCyclic).task_outputs.length =
        ((generate_from_plan chain planCyclic).task_outputs.map Prod.fst).length := by
      rw [List.length_map]
    rw [h1, hk]
    decide

/-- C2 counterexample: the one-task plan whose task `a1` depends on the absent
id `ghost` has no dependency cycle, yet generation for `a1` is invoked while
`ghost` was never added to the completed set — the forced-progress rule fires
because no task ever becomes ready, so `no cycle` alone does not give
topological respect. -/
theorem generate_from_plan_dangling_dep_cex :
    Acyclic planDangling ∧
      ∃ c ∈ executionTrace chainOk planDangling,
        ∃ d ∈ c.task.dependencies, d ∉ c.completedAtCall := by
  constructor
  · apply acyclic_of_rank planDangling (fun s => if s = "ghost" then 0 else 1)
    rintro a b ⟨t, ht, hta, htb⟩
    have hteq : t = taskDangling := by
      simpa [planDangling] using ht
    subst hteq
    have hb : b = "ghost" := by
      simpa [taskDangling] using htb
    have ha : a = "a1" := by rw [← hta]; rfl
    subst hb
    subst ha
    decide
  · decide

/-- C2 (amended): for every plan with no dependency cycle AND whose every
dependency id names a task of the plan, `generate_from_plan` invokes
generation for a task only after all of that task's dependency ids have been
added to the completed set. -/
theorem generate_from_plan_topological_respect
    (chain : CodeTask → String → Except String CodeOutput) (plan : CodePlan)
    (hacyc : Acyclic plan) (hdeps : DepsPresent plan) :
    ∀ c ∈ executionTrace chain plan, ∀ d ∈ c.task.dependencies,
      d ∈ c.completedAtCall :=
  (engineLoop_topo plan (generate_code_for_task chain) (initState plan) hacyc
    (initState_topo plan hdeps)).2.2

/-- Witness for the amended C2: the acyclic, dependency-closed 3-task linear
chain. -/
theorem generate_from_plan_topological_respect_witness :
    Acyclic planLinear ∧ DepsPresent planLinear ∧
      (∀ c ∈ executionTrace chainOk planLinear, ∀ d ∈ c.task.dependencies,
        d ∈ c.completedAtCall) := by
  have hacyc : Acyclic planLinear := by
    apply acyclic_of_rank planLinear
      (fun s => if s = "t1" then 0 else if s = "t2" then 1 else 2)
    rintro a b ⟨t, ht, hta, htb⟩
    have hmem : t = task1 ∨ t = task2 ∨ t = task3 := by
      simpa [planLinear] using ht
    rcases hmem with rfl | rfl | rfl
    · simp [task1] at htb
    · have hb : b = "t1" := by simpa [task2] using htb
      have ha : a = "t2" := by rw [← hta]; rfl
      subst hb
      subst ha
      decide
    · have hb : b = "t2" := by simpa [task3] using htb
      have ha : a = "t3" := by rw [← hta]; rfl
      subst hb
      subst ha
      decide
  have hdeps : DepsPresent planLinear := by
    show ∀ t ∈ planLinear.tasks, ∀ d ∈ t.dependencies, d ∈ planLinear.tasks.map (fun t => t.id)
    decide
  exact ⟨hacyc, hdeps,
    generate_from_plan_topological_respect chainOk planLinear hacyc hdeps⟩

theorem list_isEmpty_map {α β : Type} (f : α → β) (l : List α) :
    (l.map f).isEmpty = l.isEmpty := by
  cases l <;> rfl

/-- C3: aggregation.  For every plan with pairwise-distinct task ids (the
data-model invariant on `Task.id`): the overall confidence is the arithmetic
mean of the per-task confidences as defined by `listMean` (0 when there are no
tasks); `missing_info` and `suggestions` are the per-task entries flattened in
task-completion order; the empty plan yields confidence 0 and empty
code, missing_info and suggestions without error; and the mean of the spec's
example confidences 0.9, 0.6, 0.3 is 0.6. -/
theorem generate_from_plan_aggregation
    (chain : CodeTask → String → Except String CodeOutput) (plan : CodePlan)
    (hids : (plan.tasks.map (fun t => t.id)).Nodup) :
    (generate_from_plan chain plan).confidence =
      listMean ((executionTrace chain plan).map (fun c => c.result.confidence)) ∧
    (generate_from_plan chain plan).missing_info =
      ((executionTrace chain plan).map (fun c => c.result.missing_info.getD [])).flatten ∧
    (generate_from_plan chain plan).suggestions =
      ((executionTrace chain plan).map (fun c => c.result.suggestions.getD [])).flatten ∧
    (plan.tasks = [] →
      (generate_from_plan chain plan).code = "" ∧
      (generate_from_plan chain plan).confidence = 0 ∧
      (generate_from_plan chain plan).missing_info = [] ∧
      (generate_from_plan chain plan).suggestions = []) ∧
    listMean [mkRat 9 10, mkRat 6 10, mkRat 3 10] = mkRat 6 10 := by
  obtain ⟨_, houtputs⟩ := engineLoop_matchTrace (generate_code_for_task chain)
    (initState plan) (initState_matchTrace plan hids)
  refine ⟨?_, ?_, ?_, ?_, ?_⟩
  · simp only [generate_from_plan, executionTrace, houtputs, listMean, List.map_map,
      List.length_map, list_isEmpty_map, Function.comp_def]
  · simp only [generate_from_plan, executionTrace, houtputs, List.map_map, Function.comp_def]
  · simp only [generate_from_plan, executionTrace, houtputs, List.map_map, Function.comp_def]
  · intro hempty
    have hloop : engineLoop (generate_code_for_task chain) (initState plan) =
        initState plan := by
      unfold engineLoop
      have hz : (initState plan).remaining.length = 0 := by simp [initState, hempty]
      rw [hz, engineRun_zero]
    have hres : generate_from_plan chain plan =
        { code := "", task_outputs := [], confidence := 0,
          missing_info := [], suggestions := [] } := by
      unfold generate_from_plan
      rw [hloop]
      rfl
    rw [hres]
    exact ⟨rfl, rfl, rfl, rfl⟩
  · have : ([mkRat 9 10, mkRat 6 10, mkRat 3 10] : List ℚ).isEmpty = false := rfl
    simp only [listMean, this, Bool.false_eq_true, if_false]
    rw [show (mkRat 9 10) = (9 : ℚ)/10 by rw [Rat.mkRat_eq_div]; norm_num,
      show (mkRat 6 10) = (6 : ℚ)/10 by rw [Rat.mkRat_eq_div]; norm_num,
      show (mkRat 3 10) = (3 : ℚ)/10 by rw [Rat.mkRat_eq_div]; norm_num]
    norm_num

/-- Witness for C3: the 3-task linear plan with confidences 0.9, 0.6, 0.3. -/
theorem generate_from_plan_aggregation_witness :
    (planLinear.tasks.map (fun t => t.id)).Nodup ∧
      ((generate_from_plan chainConf planLinear).confidence =
          listMean ((executionTrace chainConf planLinear).map
            (fun c => c.result.confidence)) ∧
        (generate_from_plan chainConf planLinear).missing_info =
          ((executionTrace chainConf planLinear).map
            (fun c => c.result.missing_info.getD [])).flatten ∧
        (generate_from_plan chainConf planLinear).suggestions =
          ((executionTrace chainConf planLinear).map
            (fun c => c.result.suggestions.getD [])).flatten ∧
        (planLinear.tasks = [] →
          (generate_from_plan chainConf planLinear).code = "" ∧
          (generate_from_plan chainConf planLinear).confidence = 0 ∧
          (generate_from_plan chainConf planLinear).missing_info = [] ∧
          (generate_from_plan chainConf planLinear).suggestions = []) ∧
        listMean [mkRat 9 10, mkRat 6 10, mkRat 3 10] = mkRat 6 10) :=
  ⟨by decide, generate_from_plan_aggregation chainConf planLinear (by decide)⟩
